import Mathlib

set_option maxHeartbeats 1600000

/-!
Verification development for the Minesweeper knowledge-based agent
(src/knowledge/minesweeper.py).  The Python classes `Minesweeper`,
`Sentence` and `MinesweeperAI` are shallowly embedded below; cells are
integer pairs, Python sets become `Finset (Int × Int)`, the ordered
knowledge base becomes a `List Sentence`, and every operation is a pure
function on explicit state.
-/

/-- Python `range(a, b)` over integers, listed in increasing order. -/
def intRange (a b : Int) : List Int :=
  (List.range (b - a).toNat).map (fun (k : Nat) => a + (k : Int))

/-- `Sentence` (minesweeper.py lines 87-139): a set of board cells plus a
count of how many of them are mines.  The count is an integer because the
source decrements it with Python integer arithmetic. -/
@[ext]
structure Sentence where
  cells : Finset (Int × Int)
  count : Int
deriving DecidableEq

/-- `Sentence.known_mines` (lines 104-110): all cells when `count == len(cells)`,
else the empty set. -/
def known_mines (S : Sentence) : Finset (Int × Int) :=
  if S.count = (S.cells.card : Int) then S.cells else ∅

/-- `Sentence.known_safes` (lines 112-118): all cells when `count == 0`,
else the empty set. -/
def known_safes (S : Sentence) : Finset (Int × Int) :=
  if S.count = 0 then S.cells else ∅

/-- `Sentence.mark_mine` (lines 120-129): if the cell is in the sentence,
remove it and decrement the count; otherwise no-op. -/
def mark_mine (S : Sentence) (cell : Int × Int) : Sentence :=
  if cell ∈ S.cells then ⟨S.cells.erase cell, S.count - 1⟩ else S

/-- `Sentence.mark_safe` (lines 131-139): if the cell is in the sentence,
remove it; the count is unchanged. -/
def mark_safe (S : Sentence) (cell : Int × Int) : Sentence :=
  if cell ∈ S.cells then ⟨S.cells.erase cell, S.count⟩ else S

/-- State of `MinesweeperAI` (lines 142-161). -/
structure MinesweeperAI where
  height : Nat
  width : Nat
  moves_made : Finset (Int × Int)
  mines : Finset (Int × Int)
  safes : Finset (Int × Int)
  knowledge : List Sentence

/-- `MinesweeperAI.__init__` (lines 147-161). -/
def initAI (h w : Nat) : MinesweeperAI := ⟨h, w, ∅, ∅, ∅, []⟩

/-- The double loop of `add_knowledge` lines 202-204: rows
`range(max(0, i-1), min(height, i+2))`, columns
`range(max(0, j-1), min(width, j+2))`, flattened in loop order. -/
def neighborWindow (s : MinesweeperAI) (cell : Int × Int) : List (Int × Int) :=
  (intRange (max 0 (cell.1 - 1)) (min (s.height : Int) (cell.1 + 2))).flatMap
    (fun x => (intRange (max 0 (cell.2 - 1)) (min (s.width : Int) (cell.2 + 2))).map
      (fun y => (x, y)))

/-- `new_cell_sentence` of `add_knowledge` lines 199-207: window cells other
than the observed cell that are in neither `safes` (which already holds the
observed cell, added on line 197) nor `mines`. -/
def newSentenceCells (s : MinesweeperAI) (cell : Int × Int) : List (Int × Int) :=
  (neighborWindow s cell).filter
    (fun adj => decide (adj ≠ cell ∧ adj ∉ insert cell s.safes ∧ adj ∉ s.mines))

/-- Knowledge base after line 211: the old sentences plus the one new sentence
built from the undetermined neighbors and the observed count. -/
def kbAfterAppend (s : MinesweeperAI) (cell : Int × Int) (count : Int) : List Sentence :=
  s.knowledge ++ [⟨(newSentenceCells s cell).toFinset, count⟩]

/-- The deduction loop of `add_knowledge` lines 214-219: fold over the
knowledge base accumulating `mines` and `safes`; the last two components are
the loop variables `known_mines` / `known_safes`, which after the loop hold
the values computed for the final sentence only. -/
def deduction_fold (kb : List Sentence) (m sf : Finset (Int × Int)) :
    Finset (Int × Int) × Finset (Int × Int) × Finset (Int × Int) × Finset (Int × Int) :=
  kb.foldl (fun acc S =>
    (acc.1 ∪ known_mines S, acc.2.1 ∪ known_safes S, known_mines S, known_safes S))
    (m, sf, ∅, ∅)

/-- Result of the deduction loop for one `add_knowledge` call. -/
def dedResult (s : MinesweeperAI) (cell : Int × Int) (count : Int) :
    Finset (Int × Int) × Finset (Int × Int) × Finset (Int × Int) × Finset (Int × Int) :=
  deduction_fold (kbAfterAppend s cell count) s.mines (insert cell s.safes)

/-- Apply `mark_mine` to one sentence for every cell of a list (the inner
loops of lines 222-224, restricted to one sentence). -/
def mark_mine_list (S : Sentence) (l : List (Int × Int)) : Sentence :=
  l.foldl mark_mine S

/-- Apply `mark_safe` to one sentence for every cell of a list (the inner
loops of lines 226-228, restricted to one sentence). -/
def mark_safe_list (S : Sentence) (l : List (Int × Int)) : Sentence :=
  l.foldl mark_safe S

/-- Marking every cell of a set as a mine in one sentence: the order-free
closed form of `mark_mine_list` over an enumeration of the set (the lemma
`mark_mine_list_eq_all` below proves the two agree for every duplicate-free
enumeration, so Python's unspecified set-iteration order is immaterial). -/
def mark_mine_all (S : Sentence) (m : Finset (Int × Int)) : Sentence :=
  ⟨S.cells \ m, S.count - ((S.cells ∩ m).card : Int)⟩

/-- Marking every cell of a set as safe in one sentence (order-free closed
form of `mark_safe_list`, see `mark_safe_list_eq_all`). -/
def mark_safe_all (S : Sentence) (m : Finset (Int × Int)) : Sentence :=
  ⟨S.cells \ m, S.count⟩

/-- Net effect of the propagation loops (lines 222-228) on one sentence:
mark every cell of the final `known_mines`, then every cell of the final
`known_safes`. -/
def propagateS (km ks : Finset (Int × Int)) (S : Sentence) : Sentence :=
  mark_safe_all (mark_mine_all S km) ks

/-- `MinesweeperAI.add_knowledge` (lines 181-228).  Note two features of the
source carried over exactly: the `mines`/`safes` accumulators take the union
of every sentence's known sets, but the propagation loops reuse the loop
variables `known_mines`/`known_safes` after the deduction loop exits, so only
the final sentence's known sets are marked in the sentences. -/
def add_knowledge (s : MinesweeperAI) (cell : Int × Int) (count : Int) : MinesweeperAI :=
  ⟨s.height, s.width, insert cell s.moves_made,
   (dedResult s cell count).1, (dedResult s cell count).2.1,
   (kbAfterAppend s cell count).map
     (propagateS (dedResult s cell count).2.2.1 (dedResult s cell count).2.2.2)⟩

/-- All board cells in the row-major order of the nested loops of
`make_random_move` (lines 255-257). -/
def allCells (h w : Nat) : List (Int × Int) :=
  (List.range h).flatMap
    (fun (i : Nat) => (List.range w).map (fun (j : Nat) => ((i : Int), (j : Int))))

/-- `MinesweeperAI.make_random_move` (lines 247-262): return the first cell in
row-major order that is in neither `moves_made` nor `mines`, else `none`. -/
def make_random_move (s : MinesweeperAI) : Option (Int × Int) :=
  (allCells s.height s.width).find? (fun m => decide (m ∉ s.moves_made ∧ m ∉ s.mines))

/-- One collection pass of the deduction rule over a knowledge base: the union
of `known_mines` of every sentence (the `self.mines.update(known_mines)` part
of the loop at lines 214-218, started from the empty set). -/
def collect_known_mines (kb : List Sentence) : Finset (Int × Int) :=
  kb.foldl (fun acc S => acc ∪ known_mines S) ∅

/-- Run a fresh engine over a list of observations (cell, count), calling
`add_knowledge` once per observation. -/
def runAI (h w : Nat) (obs : List ((Int × Int) × Int)) : MinesweeperAI :=
  obs.foldl (fun st o => add_knowledge st o.1 o.2) (initAI h w)

/-- The `Minesweeper` board (lines 5-34): dimensions and the ground-truth
mine set.  The source keeps the boolean grid `board` and the set `mines` in
sync (both written under the same guard in `__init__`); the grid is recovered
from the set by `boardGrid` below. -/
structure Board where
  height : Nat
  width : Nat
  mines : Finset (Int × Int)

/-- The `self.board` list of lists of booleans (lines 17-23, 29-31):
`board[i][j]` is true iff `(i, j)` is a mine. -/
def boardGrid (b : Board) : List (List Bool) :=
  (List.range b.height).map
    (fun (i : Nat) => (List.range b.width).map
      (fun (j : Nat) => decide (((i : Int), (j : Int)) ∈ b.mines)))

/-- Python list-index resolution for a list of length `n`: indices in
`[0, n)` are used directly, indices in `[-n, 0)` wrap to `n + i`, anything
else raises `IndexError` (modelled as `none`). -/
def pyIdx (n : Nat) (i : Int) : Option Nat :=
  if 0 ≤ i ∧ i < (n : Int) then some i.toNat
  else if -(n : Int) ≤ i ∧ i < 0 then some (i + (n : Int)).toNat
  else none

/-- Python list subscript `l[i]` with wrap-around and `IndexError` as `none`. -/
def pyGet (l : List α) (i : Int) : Option α :=
  (pyIdx l.length i).bind (fun k => l[k]?)

/-- `Minesweeper.is_mine` (lines 51-53): `self.board[i][j]` with Python list
subscript semantics.  `none` models an `IndexError`; `some b` models a
silent boolean return. -/
def is_mine (b : Board) (cell : Int × Int) : Option Bool :=
  (pyGet (boardGrid b) cell.1).bind (fun row => pyGet row cell.2)

/-- The mine-placement loop of `Minesweeper.__init__` (lines 26-31), with the
random source made explicit as a stream of sampled cells and an explicit fuel
bound on the number of iterations observed.  The source checks
`len(self.mines) != mines` at the top of each iteration and inserts the
sampled cell when it is not already a mine; `none` means the loop was still
running when the fuel ran out. -/
def place_mines (target : Nat) (stream : Nat → Int × Int) :
    Nat → Nat → Finset (Int × Int) → Option (Finset (Int × Int))
  | 0, _, acc => if acc.card = target then some acc else none
  | fuel + 1, step, acc =>
    if acc.card = target then some acc
    else place_mines target stream fuel (step + 1) (insert (stream step) acc)

/-- The nine positions scanned by the double loop of `nearby_mines`
(lines 66-67): `range(i-1, i+2) × range(j-1, j+2)`, in loop order, with no
clipping (bounds are checked inside the loop body). -/
def windowList (cell : Int × Int) : List (Int × Int) :=
  [(cell.1 - 1, cell.2 - 1), (cell.1 - 1, cell.2), (cell.1 - 1, cell.2 + 1),
   (cell.1, cell.2 - 1), (cell.1, cell.2), (cell.1, cell.2 + 1),
   (cell.1 + 1, cell.2 - 1), (cell.1 + 1, cell.2), (cell.1 + 1, cell.2 + 1)]

/-- The bounds check `0 <= i < self.height and 0 <= j < self.width`
(line 74). -/
abbrev inb (b : Board) (p : Int × Int) : Prop :=
  0 ≤ p.1 ∧ p.1 < (b.height : Int) ∧ 0 ≤ p.2 ∧ p.2 < (b.width : Int)

/-- `Minesweeper.nearby_mines` (lines 55-78): over the nine window positions,
skip the cell itself, and count the in-bounds positions that hold a mine. -/
def nearby_mines (b : Board) (cell : Int × Int) : Nat :=
  ((windowList cell).filter
    (fun p => decide (p ≠ cell) && decide (inb b p) && decide (p ∈ b.mines))).length

/-- The neighbor positions of a cell that `nearby_mines` actually examines
against the board: window positions other than the cell itself that pass the
bounds check of line 74. -/
def examined (b : Board) (cell : Int × Int) : List (Int × Int) :=
  (windowList cell).filter (fun p => decide (p ≠ cell) && decide (inb b p))

/-- Folding `mark_mine` over any duplicate-free enumeration of a set equals
the closed form `mark_mine_all`: the Python set-iteration order of the
propagation loop does not matter. -/
theorem mark_mine_list_eq_all (l : List (Int × Int)) :
    ∀ (S : Sentence), l.Nodup → mark_mine_list S l = mark_mine_all S l.toFinset := by
  induction l with
  | nil => intro S _; simp [mark_mine_list, mark_mine_all]
  | cons c l ih =>
    intro S hnd
    rw [List.nodup_cons] at hnd
    have step : mark_mine_list S (c :: l) = mark_mine_list (mark_mine S c) l := rfl
    rw [step, ih _ hnd.2]
    by_cases h : c ∈ S.cells
    · have hc : c ∉ l.toFinset := by simpa using hnd.1
      simp only [mark_mine_all, mark_mine, h, if_pos, List.toFinset_cons]
      refine Sentence.ext ?_ ?_
      · ext x
        simp only [Finset.mem_sdiff, Finset.mem_erase, Finset.mem_insert]
        tauto
      · have hcard : (S.cells ∩ insert c l.toFinset).card
            = ((S.cells.erase c) ∩ l.toFinset).card + 1 := by
          have hrw : S.cells ∩ insert c l.toFinset
              = insert c ((S.cells.erase c) ∩ l.toFinset) := by
            ext x
            simp only [Finset.mem_inter, Finset.mem_insert, Finset.mem_erase]
            constructor
            · rintro ⟨hx, hx2 | hx2⟩
              · exact Or.inl hx2
              · by_cases hxc : x = c
                · exact Or.inl hxc
                · exact Or.inr ⟨⟨hxc, hx⟩, hx2⟩
            · rintro (rfl | ⟨⟨_, hx⟩, hx2⟩)
              · exact ⟨h, Or.inl rfl⟩
              · exact ⟨hx, Or.inr hx2⟩
          rw [hrw, Finset.card_insert_of_not_mem]
          simp [hc]
        rw [hcard]
        push_cast
        ring
    · have hcells : S.cells \ insert c l.toFinset = S.cells \ l.toFinset := by
        ext x
        simp only [Finset.mem_sdiff, Finset.mem_insert]
        constructor
        · rintro ⟨hx, hx2⟩; exact ⟨hx, fun hx3 => hx2 (Or.inr hx3)⟩
        · rintro ⟨hx, hx2⟩
          refine ⟨hx, ?_⟩
          rintro (rfl | hx3)
          · exact h hx
          · exact hx2 hx3
      have hcap : S.cells ∩ insert c l.toFinset = S.cells ∩ l.toFinset := by
        ext x
        simp only [Finset.mem_inter, Finset.mem_insert]
        constructor
        · rintro ⟨hx, rfl | hx2⟩
          · exact absurd hx h
          · exact ⟨hx, hx2⟩
        · rintro ⟨hx, hx2⟩; exact ⟨hx, Or.inr hx2⟩
      simp [mark_mine_all, mark_mine, h, List.toFinset_cons, hcells, hcap]

/-- Folding `mark_safe` over any duplicate-free enumeration of a set equals
the closed form `mark_safe_all`. -/
theorem mark_safe_list_eq_all (l : List (Int × Int)) :
    ∀ (S : Sentence), l.Nodup → mark_safe_list S l = mark_safe_all S l.toFinset := by
  induction l with
  | nil => intro S _; simp [mark_safe_list, mark_safe_all]
  | cons c l ih =>
    intro S hnd
    rw [List.nodup_cons] at hnd
    have step : mark_safe_list S (c :: l) = mark_safe_list (mark_safe S c) l := rfl
    rw [step, ih _ hnd.2]
    by_cases h : c ∈ S.cells
    · simp only [mark_safe_all, mark_safe, h, if_pos, List.toFinset_cons]
      refine Sentence.ext ?_ rfl
      ext x
      simp only [Finset.mem_sdiff, Finset.mem_erase, Finset.mem_insert]
      tauto
    · have hcells : S.cells \ insert c l.toFinset = S.cells \ l.toFinset := by
        ext x
        simp only [Finset.mem_sdiff, Finset.mem_insert]
        constructor
        · rintro ⟨hx, hx2⟩; exact ⟨hx, fun hx3 => hx2 (Or.inr hx3)⟩
        · rintro ⟨hx, hx2⟩
          refine ⟨hx, ?_⟩
          rintro (rfl | hx3)
          · exact h hx
          · exact hx2 hx3
      simp [mark_safe_all, mark_safe, h, List.toFinset_cons, hcells]

/-- C7: `knownMines` returns the full cell set exactly when `count = |cells|`
and the empty set otherwise; `knownSafes` returns the full cell set exactly
when `count = 0` and the empty set otherwise; in the degenerate case
`count = |cells| = 0`, `knownMines` returns the empty set. -/
theorem known_mines_known_safes_spec (S : Sentence) :
    (S.count = (S.cells.card : Int) → known_mines S = S.cells)
    ∧ (S.count ≠ (S.cells.card : Int) → known_mines S = ∅)
    ∧ (S.count = 0 → known_safes S = S.cells)
    ∧ (S.count ≠ 0 → known_safes S = ∅)
    ∧ (S.count = 0 → S.cells = ∅ → known_mines S = ∅) := by
  refine ⟨fun h => ?_, fun h => ?_, fun h => ?_, fun h => ?_, fun h h2 => ?_⟩ <;>
    simp [known_mines, known_safes, h]
  intro h3
  simp [h2]

theorem known_mines_known_safes_spec_witness :
    known_mines ⟨{((0 : Int), (0 : Int))}, 1⟩ = {((0 : Int), (0 : Int))}
    ∧ known_safes ⟨{((0 : Int), (0 : Int))}, 1⟩ = ∅
    ∧ known_mines ⟨(∅ : Finset (Int × Int)), 0⟩ = ∅ :=
  ⟨(known_mines_known_safes_spec ⟨{((0 : Int), (0 : Int))}, 1⟩).1 (by decide),
   (known_mines_known_safes_spec ⟨{((0 : Int), (0 : Int))}, 1⟩).2.2.2.1 (by decide),
   (known_mines_known_safes_spec ⟨(∅ : Finset (Int × Int)), 0⟩).2.2.2.2 rfl rfl⟩

/-- C9: `mark_mine` and `mark_safe` are idempotent: marking the same cell
twice leaves the sentence exactly as marking it once. -/
theorem mark_mine_mark_safe_idempotent (S : Sentence) (c : Int × Int) :
    mark_mine (mark_mine S c) c = mark_mine S c
    ∧ mark_safe (mark_safe S c) c = mark_safe S c := by
  constructor
  · by_cases h : c ∈ S.cells <;> simp [mark_mine, h, Finset.not_mem_erase]
  · by_cases h : c ∈ S.cells <;> simp [mark_safe, h, Finset.not_mem_erase]

/-- C1: the claim that `add_knowledge` leaves the knowledge base at a fixed
point of the deduction rules fails on the code.  After the two observations
`((0,0), 2)` then `((2,2), 0)` on a fresh 3×3 engine (both consistent with a
board whose mines are `(0,1)` and `(1,0)`), the engine's `mines` set is empty,
yet re-running the known-mines collection pass over the final knowledge base
yields the two new mines `(0,1)` and `(1,0)`: the propagation loops of
lines 222-228 reuse the loop variables after the deduction loop exits, so only
the final sentence's known sets were applied to the sentences. -/
theorem add_knowledge_not_closed_fixed_point :
    collect_known_mines (add_knowledge (add_knowledge (initAI 3 3) ((0 : Int), (0 : Int)) 2)
        ((2 : Int), (2 : Int)) 0).knowledge
      = {((0 : Int), (1 : Int)), ((1 : Int), (0 : Int))}
    ∧ (add_knowledge (add_knowledge (initAI 3 3) ((0 : Int), (0 : Int)) 2)
        ((2 : Int), (2 : Int)) 0).mines = ∅ := by decide

/-- C2: the claim that after `add_knowledge` no sentence retains a cell of the
engine's `mines`/`safes` sets fails on the code.  After the observations
`((0,0), 2)`, `((2,2), 0)`, `((0,2), 1)` on a fresh 3×3 engine (consistent
with a board whose mines are `(0,1)` and `(1,0)`), the cell `(1,0)` is in the
engine's `mines` set while a sentence in the knowledge base still contains it:
only the final sentence's known sets are propagated (lines 222-228). -/
theorem add_knowledge_incomplete_propagation :
    ((1 : Int), (0 : Int)) ∈ (add_knowledge (add_knowledge (add_knowledge (initAI 3 3)
        ((0 : Int), (0 : Int)) 2) ((2 : Int), (2 : Int)) 0) ((0 : Int), (2 : Int)) 1).mines
    ∧ ((add_knowledge (add_knowledge (add_knowledge (initAI 3 3)
        ((0 : Int), (0 : Int)) 2) ((2 : Int), (2 : Int)) 0) ((0 : Int), (2 : Int)) 1).knowledge.any
        (fun S => decide (((1 : Int), (0 : Int)) ∈ S.cells))) = true := by decide

/-- C6: the claim that `safes` and `mines` stay disjoint fails on the code.
On a 1×4 board with a single mine at `(0,1)`, the three observations
`((0,0), 1)`, `((0,2), 1)`, `((0,3), 0)` are all truthful neighbor counts of
cells that are not mines, yet afterwards `(0,3)` lies in both `safes` and
`mines`: the sentence construction of lines 202-207 drops known-mine
neighbors without decrementing the observed count (unlike `mark_mine`,
which decrements when it removes), so the engine derives the non-mine
`(0,3)` as a mine, and playing `(0,3)` then puts it into `safes` as well. -/
theorem safes_mines_overlap_reachable :
    ((0 : Int), (3 : Int)) ∈ (runAI 1 4 [(((0 : Int), (0 : Int)), 1), (((0 : Int), (2 : Int)), 1),
        (((0 : Int), (3 : Int)), 0)]).safes
    ∧ ((0 : Int), (3 : Int)) ∈ (runAI 1 4 [(((0 : Int), (0 : Int)), 1), (((0 : Int), (2 : Int)), 1),
        (((0 : Int), (3 : Int)), 0)]).mines := by decide

/-- C3: the claim that `make_random_move` picks uniformly at random among the
eligible cells fails on the code, which calls no random source at all: on a
fresh 2×2 engine every cell is eligible, and the function returns the fixed
first cell `(0,0)` of the row-major scan, never the equally eligible
`(0,1)`. -/
theorem make_random_move_deterministic_first_cell :
    make_random_move (initAI 2 2) = some ((0 : Int), (0 : Int))
    ∧ ((0 : Int), (1 : Int)) ∉ (initAI 2 2).moves_made
    ∧ ((0 : Int), (1 : Int)) ∉ (initAI 2 2).mines := by decide

/-- If every sampled cell lies in a finite set `B` with fewer than `target`
cells, the mine-placement loop can never reach `target` mines: the condition
`len(self.mines) != mines` stays true forever, so the loop is still running
whatever fuel it is given. -/
theorem place_mines_stuck (target : Nat) (stream : Nat → Int × Int) (B : Finset (Int × Int))
    (hstream : ∀ n, stream n ∈ B) (htar : B.card < target) :
    ∀ (fuel step : Nat) (acc : Finset (Int × Int)), acc ⊆ B →
      place_mines target stream fuel step acc = none := by
  intro fuel
  induction fuel with
  | zero =>
    intro step acc hacc
    have hle := Finset.card_le_card hacc
    have hne : acc.card ≠ target := by omega
    simp [place_mines, hne]
  | succ f ih =>
    intro step acc hacc
    have hle := Finset.card_le_card hacc
    have hne : acc.card ≠ target := by omega
    simp only [place_mines, hne, if_false]
    exact ih (step + 1) _ (Finset.insert_subset (hstream step) hacc)

/-- C4: the claim that the constructor rejects `mineCount > height*width` with
a descriptive error fails on the code, which validates nothing.  On a 1×1
board (where `random.randrange(1)` can only ever sample the cell `(0, 0)`)
with `mineCount = 2`, the placement loop of `Minesweeper.__init__` is still
running after any number of iterations and raises no error: the one requested
cell count can never reach 2. -/
theorem minesweeper_init_overfull_never_terminates :
    ∀ (fuel step : Nat),
      place_mines 2 (fun _ => ((0 : Int), (0 : Int))) fuel step ∅ = none := by
  intro fuel step
  refine place_mines_stuck 2 _ {((0 : Int), (0 : Int))} ?_ (by decide)
    fuel step ∅ (Finset.empty_subset _)
  intro n
  show ((0 : Int), (0 : Int)) ∈ ({((0 : Int), (0 : Int))} : Finset (Int × Int))
  decide

/-- The board grid has one list per row. -/
theorem grid_len (b : Board) : (boardGrid b).length = b.height := by
  simp [boardGrid]

/-- Row `k` of the board grid, for an in-range row index. -/
theorem boardGrid_pyGet (b : Board) (k : Nat) (hk : k < b.height) :
    (boardGrid b)[k]? = some ((List.range b.width).map
      (fun (j : Nat) => decide (((k : Int), (j : Int)) ∈ b.mines))) := by
  rw [boardGrid, List.getElem?_map, List.getElem?_range hk]
  rfl

/-- Entry `m` of a grid row, for an in-range column index. -/
theorem row_pyGet (b : Board) (x : Int) (m : Nat) (hm : m < b.width) :
    ((List.range b.width).map
      (fun (n : Nat) => decide ((x, (n : Int)) ∈ b.mines)))[m]?
      = some (decide ((x, (m : Int)) ∈ b.mines)) := by
  rw [List.getElem?_map, List.getElem?_range hm]
  rfl

/-- Python subscript on the grid with a row index in `[0, height)`. -/
theorem pyGet_grid_direct (b : Board) (i : Int) (h1 : 0 ≤ i) (h2 : i < (b.height : Int)) :
    pyGet (boardGrid b) i = some ((List.range b.width).map
      (fun (n : Nat) => decide ((i, (n : Int)) ∈ b.mines))) := by
  have hidx : pyIdx (boardGrid b).length i = some i.toNat := by
    rw [grid_len]; unfold pyIdx; rw [if_pos (by omega)]
  unfold pyGet
  rw [hidx]
  show (boardGrid b)[i.toNat]? = _
  have h5 := boardGrid_pyGet b i.toNat (by omega)
  rwa [Int.toNat_of_nonneg h1] at h5

/-- Python subscript on the grid with a row index in `[-height, 0)` wraps to
row `i + height`. -/
theorem pyGet_grid_wrap (b : Board) (i : Int) (h1 : -(b.height : Int) ≤ i) (h2 : i < 0) :
    pyGet (boardGrid b) i = some ((List.range b.width).map
      (fun (n : Nat) => decide ((i + (b.height : Int), (n : Int)) ∈ b.mines))) := by
  have hidx : pyIdx (boardGrid b).length i = some (i + (b.height : Int)).toNat := by
    rw [grid_len]; unfold pyIdx; rw [if_neg (by omega), if_pos (by omega)]
  unfold pyGet
  rw [hidx]
  show (boardGrid b)[(i + (b.height : Int)).toNat]? = _
  have h5 := boardGrid_pyGet b (i + (b.height : Int)).toNat (by omega)
  rwa [Int.toNat_of_nonneg (by omega : (0 : Int) ≤ i + (b.height : Int))] at h5

/-- Python subscript on a grid row with a column index in `[0, width)`. -/
theorem pyGet_row_direct (b : Board) (x j : Int) (h1 : 0 ≤ j) (h2 : j < (b.width : Int)) :
    pyGet ((List.range b.width).map
        (fun (n : Nat) => decide ((x, (n : Int)) ∈ b.mines))) j
      = some (decide ((x, j) ∈ b.mines)) := by
  unfold pyGet
  have hlen : ((List.range b.width).map
      (fun (n : Nat) => decide ((x, (n : Int)) ∈ b.mines))).length = b.width := by simp
  rw [hlen]
  have hidx : pyIdx b.width j = some j.toNat := by
    unfold pyIdx; rw [if_pos (by omega)]
  rw [hidx]
  show ((List.range b.width).map _)[j.toNat]? = _
  rw [row_pyGet b x j.toNat (by omega), Int.toNat_of_nonneg h1]

/-- Python subscript on a grid row with a column index in `[-width, 0)` wraps
to column `j + width`. -/
theorem pyGet_row_wrap (b : Board) (x j : Int) (h1 : -(b.width : Int) ≤ j) (h2 : j < 0) :
    pyGet ((List.range b.width).map
        (fun (n : Nat) => decide ((x, (n : Int)) ∈ b.mines))) j
      = some (decide ((x, j + (b.width : Int)) ∈ b.mines)) := by
  unfold pyGet
  have hlen : ((List.range b.width).map
      (fun (n : Nat) => decide ((x, (n : Int)) ∈ b.mines))).length = b.width := by simp
  rw [hlen]
  have hidx : pyIdx b.width j = some (j + (b.width : Int)).toNat := by
    unfold pyIdx; rw [if_neg (by omega), if_pos (by omega)]
  rw [hidx]
  show ((List.range b.width).map _)[(j + (b.width : Int)).toNat]? = _
  rw [row_pyGet b x (j + (b.width : Int)).toNat (by omega),
    Int.toNat_of_nonneg (by omega : (0 : Int) ≤ j + (b.width : Int))]

/-- Python subscript on a grid row with a column index outside
`[-width, width)` raises `IndexError`. -/
theorem pyGet_row_none (b : Board) (x j : Int)
    (h1 : (b.width : Int) ≤ j ∨ j < -(b.width : Int)) :
    pyGet ((List.range b.width).map
        (fun (n : Nat) => decide ((x, (n : Int)) ∈ b.mines))) j = none := by
  unfold pyGet
  have hlen : ((List.range b.width).map
      (fun (n : Nat) => decide ((x, (n : Int)) ∈ b.mines))).length = b.width := by simp
  rw [hlen]
  have hidx : pyIdx b.width j = none := by
    unfold pyIdx; rw [if_neg (by omega), if_neg (by omega)]
  rw [hidx]
  rfl

/-- C5 counterexample: the claim that `is_mine` fails loudly on every
out-of-bounds cell is false.  On a 2×2 board with a mine at `(1, 0)`, the
out-of-bounds query `(-1, 0)` (row `-1 < 0`) silently returns the boolean
`True`: Python negative indexing wraps `board[-1]` to the last row instead of
raising. -/
theorem is_mine_negative_index_silent :
    ((-1 : Int) < 0)
    ∧ is_mine ⟨2, 2, {((1 : Int), (0 : Int))}⟩ ((-1 : Int), (0 : Int)) = some true := by
  decide

/-- C5 (amended): `is_mine` raises `IndexError` exactly for cells whose row
lies outside `[-height, height)`, or whose row resolves but whose column lies
outside `[-width, width)`; for indices in the negative ranges
`[-height, -1]` / `[-width, -1]` it does not error but silently returns the
mine status of the wrapped cell (`row + height`, `col + width`), exactly as
Python list indexing behaves. -/
theorem is_mine_python_index_semantics (b : Board) (i j : Int) :
    (((b.height : Int) ≤ i ∨ i < -(b.height : Int)) → is_mine b (i, j) = none)
    ∧ (-(b.height : Int) ≤ i → i < (b.height : Int) →
        ((b.width : Int) ≤ j ∨ j < -(b.width : Int)) → is_mine b (i, j) = none)
    ∧ (-(b.height : Int) ≤ i → i < 0 → -(b.width : Int) ≤ j → j < 0 →
        is_mine b (i, j)
          = some (decide ((i + (b.height : Int), j + (b.width : Int)) ∈ b.mines)))
    ∧ (-(b.height : Int) ≤ i → i < 0 → 0 ≤ j → j < (b.width : Int) →
        is_mine b (i, j) = some (decide ((i + (b.height : Int), j) ∈ b.mines)))
    ∧ (0 ≤ i → i < (b.height : Int) → -(b.width : Int) ≤ j → j < 0 →
        is_mine b (i, j) = some (decide ((i, j + (b.width : Int)) ∈ b.mines))) := by
  refine ⟨fun h1 => ?_, fun h1 h2 h3 => ?_, fun h1 h2 h3 h4 => ?_,
    fun h1 h2 h3 h4 => ?_, fun h1 h2 h3 h4 => ?_⟩
  · have hk : pyIdx (boardGrid b).length i = none := by
      rw [grid_len]; unfold pyIdx; rw [if_neg (by omega), if_neg (by omega)]
    show (pyGet (boardGrid b) i).bind _ = none
    unfold pyGet
    rw [hk]
    rfl
  · show (pyGet (boardGrid b) i).bind _ = none
    by_cases hi : 0 ≤ i
    · rw [pyGet_grid_direct b i hi h2]
      exact pyGet_row_none b i j h3
    · rw [pyGet_grid_wrap b i h1 (by omega)]
      exact pyGet_row_none b (i + (b.height : Int)) j h3
  · show (pyGet (boardGrid b) i).bind _ = _
    rw [pyGet_grid_wrap b i h1 h2]
    exact pyGet_row_wrap b (i + (b.height : Int)) j h3 h4
  · show (pyGet (boardGrid b) i).bind _ = _
    rw [pyGet_grid_wrap b i h1 h2]
    exact pyGet_row_direct b (i + (b.height : Int)) j h3 h4
  · show (pyGet (boardGrid b) i).bind _ = _
    rw [pyGet_grid_direct b i h1 h2]
    exact pyGet_row_wrap b i j h3 h4

theorem is_mine_python_index_semantics_witness :
    is_mine ⟨2, 2, {((1 : Int), (0 : Int))}⟩ ((5 : Int), (0 : Int)) = none
    ∧ is_mine ⟨2, 2, {((1 : Int), (0 : Int))}⟩ ((-1 : Int), (-2 : Int)) = some true :=
  ⟨(is_mine_python_index_semantics ⟨2, 2, {((1 : Int), (0 : Int))}⟩ 5 0).1
      (Or.inl (by decide)),
   by
     have h := (is_mine_python_index_semantics ⟨2, 2, {((1 : Int), (0 : Int))}⟩ (-1) (-2)).2.2.1
       (by decide) (by decide) (by decide) (by decide)
     rw [h]
     decide⟩

/-- Membership in the integer range `range(a, b)`. -/
theorem mem_intRange (lo hi a : Int) : a ∈ intRange lo hi ↔ lo ≤ a ∧ a < hi := by
  simp only [intRange, List.mem_map, List.mem_range]
  constructor
  · rintro ⟨k, hk, rfl⟩
    omega
  · intro h
    exact ⟨(a - lo).toNat, by omega, by omega⟩

/-- Propagation only removes cells from a sentence, never adds any. -/
theorem propagateS_cells_subset (km ks : Finset (Int × Int)) (S : Sentence) :
    (propagateS km ks S).cells ⊆ S.cells := by
  show ((S.cells \ km) \ ks) ⊆ S.cells
  exact Finset.Subset.trans Finset.sdiff_subset Finset.sdiff_subset

/-- The knowledge base produced by one `add_knowledge` call is the old base
plus the one appended sentence, each mapped through the propagation step. -/
theorem add_knowledge_kb (s : MinesweeperAI) (cell : Int × Int) (count : Int) :
    (add_knowledge s cell count).knowledge
      = (kbAfterAppend s cell count).map
          (propagateS (dedResult s cell count).2.2.1 (dedResult s cell count).2.2.2) := rfl

/-- Each `add_knowledge` call grows the knowledge base by exactly one. -/
theorem add_knowledge_len (s : MinesweeperAI) (cell : Int × Int) (count : Int) :
    (add_knowledge s cell count).knowledge.length = s.knowledge.length + 1 := by
  rw [add_knowledge_kb]
  simp [kbAfterAppend]

/-- C10: every `add_knowledge` call appends exactly one sentence (so after any
observation sequence from a fresh engine the knowledge-base length equals the
number of observations); no other sentence is ever inserted — the pre-existing
sentences keep their positions and can only lose cells — and every cell of the
appended sentence is in bounds and distinct from the observed cell. -/
theorem add_knowledge_appends_one_sentence :
    (∀ (s : MinesweeperAI) (cell : Int × Int) (count : Int),
        (add_knowledge s cell count).knowledge.length = s.knowledge.length + 1
      ∧ (∀ (i : Nat) (hi : i < s.knowledge.length)
            (hi2 : i < (add_knowledge s cell count).knowledge.length),
          ((add_knowledge s cell count).knowledge.get ⟨i, hi2⟩).cells
            ⊆ (s.knowledge.get ⟨i, hi⟩).cells)
      ∧ (∀ (hn : s.knowledge.length < (add_knowledge s cell count).knowledge.length),
          ∀ p ∈ ((add_knowledge s cell count).knowledge.get
              ⟨s.knowledge.length, hn⟩).cells,
            (0 ≤ p.1 ∧ p.1 < (s.height : Int) ∧ 0 ≤ p.2 ∧ p.2 < (s.width : Int))
              ∧ p ≠ cell))
    ∧ (∀ (h w : Nat) (obs : List ((Int × Int) × Int)),
        (runAI h w obs).knowledge.length = obs.length) := by
  constructor
  · intro s cell count
    refine ⟨add_knowledge_len s cell count, ?_, ?_⟩
    · intro i hi hi2
      have h1 : (add_knowledge s cell count).knowledge.get ⟨i, hi2⟩
          = propagateS (dedResult s cell count).2.2.1 (dedResult s cell count).2.2.2
              (s.knowledge.get ⟨i, hi⟩) := by
        rw [List.get_eq_getElem, List.get_eq_getElem]
        simp only [add_knowledge_kb, List.getElem_map, kbAfterAppend]
        rw [List.getElem_append_left hi]
      rw [h1]
      exact propagateS_cells_subset _ _ _
    · intro hn p hp
      have h1 : (add_knowledge s cell count).knowledge.get ⟨s.knowledge.length, hn⟩
          = propagateS (dedResult s cell count).2.2.1 (dedResult s cell count).2.2.2
              ⟨(newSentenceCells s cell).toFinset, count⟩ := by
        rw [List.get_eq_getElem]
        simp only [add_knowledge_kb, List.getElem_map, kbAfterAppend]
        rw [List.getElem_append_right (by omega)]
        simp
      rw [h1] at hp
      have h2 : p ∈ (newSentenceCells s cell).toFinset :=
        propagateS_cells_subset _ _ _ hp
      rw [List.mem_toFinset] at h2
      rw [newSentenceCells, List.mem_filter] at h2
      obtain ⟨hw, hcond⟩ := h2
      rw [decide_eq_true_eq] at hcond
      obtain ⟨hne, _, _⟩ := hcond
      refine ⟨?_, hne⟩
      rw [neighborWindow, List.mem_flatMap] at hw
      obtain ⟨x, hx, hy⟩ := hw
      rw [List.mem_map] at hy
      obtain ⟨y, hy2, rfl⟩ := hy
      rw [mem_intRange] at hx hy2
      refine ⟨by omega, by omega, by omega, by omega⟩
  · intro h w obs
    have haux : ∀ (l : List ((Int × Int) × Int)) (st : MinesweeperAI),
        (l.foldl (fun a o => add_knowledge a o.1 o.2) st).knowledge.length
          = st.knowledge.length + l.length := by
      intro l
      induction l with
      | nil => intro st; simp
      | cons o l ih =>
        intro st
        rw [List.foldl_cons, ih, add_knowledge_len]
        simp
        omega
    rw [runAI, haux]
    simp [initAI]

theorem add_knowledge_appends_one_sentence_witness :
    ((add_knowledge (add_knowledge (initAI 2 2) ((0 : Int), (0 : Int)) 1)
        ((1 : Int), (1 : Int)) 1).knowledge.get ⟨0, by decide⟩).cells
      ⊆ ((add_knowledge (initAI 2 2) ((0 : Int), (0 : Int)) 1).knowledge.get
          ⟨0, by decide⟩).cells
    ∧ ((0 ≤ ((0 : Int), (1 : Int)).1
        ∧ ((0 : Int), (1 : Int)).1 < (((add_knowledge (initAI 2 2)
            ((0 : Int), (0 : Int)) 1).height : Nat) : Int)
        ∧ 0 ≤ ((0 : Int), (1 : Int)).2
        ∧ ((0 : Int), (1 : Int)).2 < (((add_knowledge (initAI 2 2)
            ((0 : Int), (0 : Int)) 1).width : Nat) : Int))
      ∧ ((0 : Int), (1 : Int)) ≠ ((1 : Int), (1 : Int))) :=
  ⟨(add_knowledge_appends_one_sentence.1
      (add_knowledge (initAI 2 2) ((0 : Int), (0 : Int)) 1) ((1 : Int), (1 : Int)) 1).2.1
      0 (by decide) (by decide),
   (add_knowledge_appends_one_sentence.1
      (add_knowledge (initAI 2 2) ((0 : Int), (0 : Int)) 1) ((1 : Int), (1 : Int)) 1).2.2
      (by decide) ((0 : Int), (1 : Int)) (by decide)⟩

/-- Membership in the examined-neighbor list: exactly the eight Moore offsets
of the cell that pass the bounds check. -/
theorem examined_mem (b : Board) (r c : Int) (p : Int × Int) :
    p ∈ examined b (r, c) ↔
      ((p = (r - 1, c - 1) ∨ p = (r - 1, c) ∨ p = (r - 1, c + 1) ∨ p = (r, c - 1)
        ∨ p = (r, c + 1) ∨ p = (r + 1, c - 1) ∨ p = (r + 1, c) ∨ p = (r + 1, c + 1))
       ∧ 0 ≤ p.1 ∧ p.1 < (b.height : Int) ∧ 0 ≤ p.2 ∧ p.2 < (b.width : Int)) := by
  obtain ⟨x, y⟩ := p
  simp only [examined, windowList, List.mem_filter, List.mem_cons,
    List.not_mem_nil, or_false, Bool.and_eq_true, decide_eq_true_eq, ne_eq, inb,
    Prod.mk.injEq]
  constructor
  · rintro ⟨hd, hne, hb⟩
    refine ⟨?_, hb⟩
    rcases hd with h | h | h | h | h | h | h | h | h
    · exact Or.inl h
    · exact Or.inr (Or.inl h)
    · exact Or.inr (Or.inr (Or.inl h))
    · exact Or.inr (Or.inr (Or.inr (Or.inl h)))
    · exact absurd h hne
    · exact Or.inr (Or.inr (Or.inr (Or.inr (Or.inl h))))
    · exact Or.inr (Or.inr (Or.inr (Or.inr (Or.inr (Or.inl h)))))
    · exact Or.inr (Or.inr (Or.inr (Or.inr (Or.inr (Or.inr (Or.inl h))))))
    · exact Or.inr (Or.inr (Or.inr (Or.inr (Or.inr (Or.inr (Or.inr h))))))
  · rintro ⟨hd, hb⟩
    refine ⟨?_, ?_, hb⟩
    · tauto
    · rcases hd with h | h | h | h | h | h | h | h <;> omega

/-- The nine window positions are pairwise distinct. -/
theorem windowList_nodup (r c : Int) : (windowList (r, c)).Nodup := by
  simp only [windowList, List.nodup_cons, List.mem_cons, List.not_mem_nil,
    or_false, Prod.mk.injEq, List.nodup_nil, and_true, true_and, not_or,
    not_false_eq_true, not_and]
  omega

/-- The examined-neighbor list has no duplicates. -/
theorem examined_nodup (b : Board) (r c : Int) : (examined b (r, c)).Nodup :=
  (windowList_nodup r c).filter _

/-- The examined-neighbor list is no longer than any finite set containing
all its members. -/
theorem examined_length_le (b : Board) (r c : Int) (T : Finset (Int × Int))
    (hT : ∀ p ∈ examined b (r, c), p ∈ T) : (examined b (r, c)).length ≤ T.card := by
  rw [← List.toFinset_card_of_nodup (examined_nodup b r c)]
  apply Finset.card_le_card
  intro p hp
  rw [List.mem_toFinset] at hp
  exact hT p hp

/-- A row-set/column-set product with the center removed has one cell fewer
than the product. -/
theorem prod_sdiff_center_card_le (R C : Finset Int) (r c : Int) (hR : r ∈ R) (hC : c ∈ C)
    (n : Nat) (h : R.card * C.card ≤ n + 1) :
    ((R ×ˢ C) \ {(r, c)}).card ≤ n := by
  have hmem : ((r, c) : Int × Int) ∈ R ×ˢ C := by
    rw [Finset.mem_product]
    exact ⟨hR, hC⟩
  rw [Finset.card_sdiff (by simpa using hmem)]
  have hcard := Finset.card_product R C
  simp only [Finset.card_singleton]
  omega

/-- A two-element set literal has at most two elements. -/
theorem card_pair_le (a b : Int) : ({a, b} : Finset Int).card ≤ 2 := by
  apply le_trans (Finset.card_insert_le _ _)
  simp

/-- A three-element set literal has at most three elements. -/
theorem card_triple_le (a b c : Int) : ({a, b, c} : Finset Int).card ≤ 3 := by
  apply le_trans (Finset.card_insert_le _ _)
  have := card_pair_le b c
  omega

/-- Every examined neighbor lies in any row-set/column-set product that covers
the three candidate rows and columns, minus the center cell. -/
theorem examined_subset_prod (b : Board) (r c : Int) (R C : Finset Int)
    (hrow : ∀ x : Int, (x = r - 1 ∨ x = r ∨ x = r + 1) → 0 ≤ x → x < (b.height : Int) → x ∈ R)
    (hcol : ∀ y : Int, (y = c - 1 ∨ y = c ∨ y = c + 1) → 0 ≤ y → y < (b.width : Int) → y ∈ C) :
    ∀ p ∈ examined b (r, c), p ∈ (R ×ˢ C) \ {(r, c)} := by
  intro p hp
  rw [examined_mem] at hp
  obtain ⟨hd, hb1, hb2, hb3, hb4⟩ := hp
  obtain ⟨x, y⟩ := p
  simp only [Finset.mem_sdiff, Finset.mem_product, Finset.mem_singleton, Prod.mk.injEq,
    not_and] at *
  rcases hd with ⟨hx, hy⟩ | ⟨hx, hy⟩ | ⟨hx, hy⟩ | ⟨hx, hy⟩ | ⟨hx, hy⟩ | ⟨hx, hy⟩
    | ⟨hx, hy⟩ | ⟨hx, hy⟩ <;>
    exact ⟨⟨hrow x (by tauto) hb1 hb2, hcol y (by tauto) hb3 hb4⟩, by intro h1 h2; omega⟩

/-- A corner cell (both coordinates on the boundary) has at most three
examined neighbors: its rows fit in two values, its columns fit in two
values, and the cell itself is excluded. -/
theorem examined_corner_le (b : Board) (r c : Int)
    (hr : r = 0 ∨ r = (b.height : Int) - 1) (hc : c = 0 ∨ c = (b.width : Int) - 1) :
    (examined b (r, c)).length ≤ 3 := by
  have hRC : ∃ (R C : Finset Int), r ∈ R ∧ c ∈ C ∧ R.card ≤ 2 ∧ C.card ≤ 2
      ∧ (∀ x : Int, (x = r - 1 ∨ x = r ∨ x = r + 1) → 0 ≤ x → x < (b.height : Int) → x ∈ R)
      ∧ (∀ y : Int, (y = c - 1 ∨ y = c ∨ y = c + 1) → 0 ≤ y → y < (b.width : Int) → y ∈ C) := by
    refine ⟨if r = 0 then {r, r + 1} else {r - 1, r},
      if c = 0 then {c, c + 1} else {c - 1, c}, ?_, ?_, ?_, ?_, ?_, ?_⟩
    · split <;> simp
    · split <;> simp
    · split <;> exact card_pair_le _ _
    · split <;> exact card_pair_le _ _
    · split
      · rename_i h0
        intro x hx h1 h2
        simp only [Finset.mem_insert, Finset.mem_singleton]
        omega
      · rename_i h0
        intro x hx h1 h2
        simp only [Finset.mem_insert, Finset.mem_singleton]
        rcases hr with hr | hr
        · exact absurd hr h0
        · omega
    · split
      · rename_i h0
        intro y hy h1 h2
        simp only [Finset.mem_insert, Finset.mem_singleton]
        omega
      · rename_i h0
        intro y hy h1 h2
        simp only [Finset.mem_insert, Finset.mem_singleton]
        rcases hc with hc | hc
        · exact absurd hc h0
        · omega
  obtain ⟨R, C, hrR, hcC, hR2, hC2, hrow, hcol⟩ := hRC
  refine le_trans (examined_length_le b r c ((R ×ˢ C) \ {(r, c)})
    (examined_subset_prod b r c R C hrow hcol)) ?_
  exact prod_sdiff_center_card_le R C r c hrR hcC 3 (by nlinarith)

/-- An edge cell (some coordinate on the boundary) has at most five examined
neighbors. -/
theorem examined_edge_le (b : Board) (r c : Int)
    (hrc : r = 0 ∨ r = (b.height : Int) - 1 ∨ c = 0 ∨ c = (b.width : Int) - 1) :
    (examined b (r, c)).length ≤ 5 := by
  have hRC : ∃ (R C : Finset Int), r ∈ R ∧ c ∈ C ∧ R.card * C.card ≤ 6
      ∧ (∀ x : Int, (x = r - 1 ∨ x = r ∨ x = r + 1) → 0 ≤ x → x < (b.height : Int) → x ∈ R)
      ∧ (∀ y : Int, (y = c - 1 ∨ y = c ∨ y = c + 1) → 0 ≤ y → y < (b.width : Int) → y ∈ C) := by
    rcases hrc with h | h | h | h
    · refine ⟨{r, r + 1}, {c - 1, c, c + 1}, by simp, by simp, ?_, ?_, ?_⟩
      · have h1 := card_pair_le r (r + 1)
        have h2 := card_triple_le (c - 1) c (c + 1)
        nlinarith
      · intro x hx h1 h2
        simp only [Finset.mem_insert, Finset.mem_singleton]
        omega
      · intro y hy h1 h2
        simp only [Finset.mem_insert, Finset.mem_singleton]
        tauto
    · refine ⟨{r - 1, r}, {c - 1, c, c + 1}, by simp, by simp, ?_, ?_, ?_⟩
      · have h1 := card_pair_le (r - 1) r
        have h2 := card_triple_le (c - 1) c (c + 1)
        nlinarith
      · intro x hx h1 h2
        simp only [Finset.mem_insert, Finset.mem_singleton]
        omega
      · intro y hy h1 h2
        simp only [Finset.mem_insert, Finset.mem_singleton]
        tauto
    · refine ⟨{r - 1, r, r + 1}, {c, c + 1}, by simp, by simp, ?_, ?_, ?_⟩
      · have h1 := card_triple_le (r - 1) r (r + 1)
        have h2 := card_pair_le c (c + 1)
        nlinarith
      · intro x hx h1 h2
        simp only [Finset.mem_insert, Finset.mem_singleton]
        tauto
      · intro y hy h1 h2
        simp only [Finset.mem_insert, Finset.mem_singleton]
        omega
    · refine ⟨{r - 1, r, r + 1}, {c - 1, c}, by simp, by simp, ?_, ?_, ?_⟩
      · have h1 := card_triple_le (r - 1) r (r + 1)
        have h2 := card_pair_le (c - 1) c
        nlinarith
      · intro x hx h1 h2
        simp only [Finset.mem_insert, Finset.mem_singleton]
        tauto
      · intro y hy h1 h2
        simp only [Finset.mem_insert, Finset.mem_singleton]
        omega
  obtain ⟨R, C, hrR, hcC, h6, hrow, hcol⟩ := hRC
  refine le_trans (examined_length_le b r c ((R ×ˢ C) \ {(r, c)})
    (examined_subset_prod b r c R C hrow hcol)) ?_
  exact prod_sdiff_center_card_le R C r c hrR hcC 5 (by omega)

/-- The neighbor-check predicate of `nearby_mines` holds for a non-center
in-bounds window position. -/
theorem window_pred_pos (b : Board) (r c x y : Int) (hne : ¬(x = r ∧ y = c))
    (hb1 : 0 ≤ x) (hb2 : x < (b.height : Int)) (hb3 : 0 ≤ y) (hb4 : y < (b.width : Int)) :
    (decide (((x, y) : Int × Int) ≠ (r, c)) && decide (inb b (x, y))) = true := by
  simp only [Bool.and_eq_true, decide_eq_true_eq, ne_eq, Prod.mk.injEq, not_and, inb]
  exact ⟨fun h1 h2 => hne ⟨h1, h2⟩, hb1, hb2, hb3, hb4⟩

/-- The neighbor-check predicate rejects the center cell itself. -/
theorem window_pred_center (b : Board) (r c : Int) :
    (decide (((r, c) : Int × Int) ≠ (r, c)) && decide (inb b (r, c))) = false := by
  simp

/-- An interior cell has exactly eight examined neighbors: every window
position except the center passes the bounds check. -/
theorem examined_interior_eq (b : Board) (r c : Int) (h1 : 0 < r)
    (h2 : r < (b.height : Int) - 1) (h3 : 0 < c) (h4 : c < (b.width : Int) - 1) :
    (examined b (r, c)).length = 8 := by
  have e1 := window_pred_pos b r c (r - 1) (c - 1) (by omega) (by omega) (by omega)
    (by omega) (by omega)
  have e2 := window_pred_pos b r c (r - 1) c (by omega) (by omega) (by omega)
    (by omega) (by omega)
  have e3 := window_pred_pos b r c (r - 1) (c + 1) (by omega) (by omega) (by omega)
    (by omega) (by omega)
  have e4 := window_pred_pos b r c r (c - 1) (by omega) (by omega) (by omega)
    (by omega) (by omega)
  have e5 := window_pred_center b r c
  have e6 := window_pred_pos b r c r (c + 1) (by omega) (by omega) (by omega)
    (by omega) (by omega)
  have e7 := window_pred_pos b r c (r + 1) (c - 1) (by omega) (by omega) (by omega)
    (by omega) (by omega)
  have e8 := window_pred_pos b r c (r + 1) c (by omega) (by omega) (by omega)
    (by omega) (by omega)
  have e9 := window_pred_pos b r c (r + 1) (c + 1) (by omega) (by omega) (by omega)
    (by omega) (by omega)
  simp only [examined, windowList, List.filter_cons, e1, e2, e3, e4, e5, e6, e7, e8, e9,
    if_true, if_false, List.filter_nil]
  simp

/-- `nearby_mines` counts exactly the mines among the examined in-bounds
neighbors. -/
theorem nearby_mines_eq_inter_card (b : Board) (cell : Int × Int) :
    nearby_mines b cell = ((examined b cell).toFinset ∩ b.mines).card := by
  have hstep : (windowList cell).filter
        (fun p => decide (p ≠ cell) && decide (inb b p) && decide (p ∈ b.mines))
      = (examined b cell).filter (fun p => decide (p ∈ b.mines)) := by
    rw [examined, List.filter_filter]
    congr 1
    funext a
    exact (Bool.and_comm _ _).symm
  have hnd : ((examined b cell).filter (fun p => decide (p ∈ b.mines))).Nodup := by
    obtain ⟨r, c⟩ := cell
    exact (examined_nodup b r c).filter _
  rw [nearby_mines, hstep, ← List.toFinset_card_of_nodup hnd]
  congr 1
  ext q
  simp [List.mem_filter]

/-- C8: for an in-bounds cell, `nearby_mines` counts exactly the mines among
the in-bounds Moore neighbors of the cell, never counting the cell itself and
never counting an out-of-bounds position; a corner cell has at most 3
neighbors examined, an edge cell at most 5, and an interior cell exactly 8. -/
theorem nearby_mines_spec (b : Board) (r c : Int) (_hcell : inb b (r, c)) :
    nearby_mines b (r, c) = ((examined b (r, c)).toFinset ∩ b.mines).card
    ∧ (r, c) ∉ examined b (r, c)
    ∧ (∀ p ∈ examined b (r, c), p ≠ (r, c) ∧ inb b p)
    ∧ ((r = 0 ∨ r = (b.height : Int) - 1) → (c = 0 ∨ c = (b.width : Int) - 1) →
        (examined b (r, c)).length ≤ 3)
    ∧ ((r = 0 ∨ r = (b.height : Int) - 1 ∨ c = 0 ∨ c = (b.width : Int) - 1) →
        (examined b (r, c)).length ≤ 5)
    ∧ (0 < r → r < (b.height : Int) - 1 → 0 < c → c < (b.width : Int) - 1 →
        (examined b (r, c)).length = 8) := by
  refine ⟨nearby_mines_eq_inter_card b (r, c), ?_, ?_,
    examined_corner_le b r c, examined_edge_le b r c, examined_interior_eq b r c⟩
  · intro hmem
    rw [examined, List.mem_filter] at hmem
    simp at hmem
  · intro p hp
    rw [examined, List.mem_filter] at hp
    obtain ⟨hw, hcond⟩ := hp
    simp only [Bool.and_eq_true, decide_eq_true_eq] at hcond
    exact ⟨hcond.1, hcond.2⟩

theorem nearby_mines_spec_witness :
    (examined ⟨3, 3, {((0 : Int), (0 : Int))}⟩ ((1 : Int), (1 : Int))).length = 8
    ∧ nearby_mines ⟨3, 3, {((0 : Int), (0 : Int))}⟩ ((1 : Int), (1 : Int))
        = ((examined ⟨3, 3, {((0 : Int), (0 : Int))}⟩ ((1 : Int), (1 : Int))).toFinset
            ∩ ({((0 : Int), (0 : Int))} : Finset (Int × Int))).card :=
  ⟨(nearby_mines_spec ⟨3, 3, {((0 : Int), (0 : Int))}⟩ 1 1 (by decide)).2.2.2.2.2
      (by decide) (by decide) (by decide) (by decide),
   (nearby_mines_spec ⟨3, 3, {((0 : Int), (0 : Int))}⟩ 1 1 (by decide)).1⟩
